import Mathlib

/-!
Verification of the SimpleRTree spatial index (Go, src/RTree.go and
src/vectorBbox.go) against its natural-language specification.

Embedding conventions.

* float64 values are modelled as exact rationals; the float operations used
  by the code (arithmetic, comparisons, math.Ceil, math.Log, math.Sqrt,
  math.Pow) are modelled by their exact counterparts.  math.Inf(1) is the
  top element of WithTop Rat.
* Go slices are modelled as functional lists; the pointer/reallocation
  behaviour of append is idealized as pure list append.
* log.Fatal is modelled as GoResult.fatal (a process-ending diagnostic),
  runtime panics (nil dereference, index out of range) as GoResult.crash.
* The two search pools (searchQueuePool, searchQueueItemPoolPool, declared
  in repository files not under src/) recycle allocations and carry no
  observable value-level state; only their nil-ness (they are never
  initialised for a tree that was never loaded with points) is retained,
  as Bool fields meaning non-nil.
* The search queue is the min-priority queue of container/heap with the
  less function of the searchQueue type (not under src/); per the spec it
  orders items by ascending lower-bound squared distance.  Tie order among
  equal keys is unspecified in Go; the model pops the first minimal item.
-/

namespace SRT

/-- Result of running a Go function: a normal return, log.Fatal (which
prints a diagnostic and ends the process), or a runtime panic. -/
inductive GoResult (α : Type) where
  | ok : α → GoResult α
  | fatal : GoResult α
  | crash : GoResult α
deriving DecidableEq, Repr

/-- Modelled from the spec: the BoundingBox record (minX, minY, maxX, maxY)
of spec section 3.  The BBox struct itself is declared in a repository file
that is not under src/; its fields are fixed by their uses in src/RTree.go
and src/vectorBbox.go. -/
structure BBox where
  MinX : ℚ
  MinY : ℚ
  MaxX : ℚ
  MaxY : ℚ
deriving DecidableEq, Repr

instance : Inhabited BBox := ⟨⟨0, 0, 0, 0⟩⟩

/-- Modelled from the spec: merge(a,b) = componentwise min/max (spec
section 4.1).  The Go implementation (BBox.extend, backed by
vectorBBoxExtend of src/vectorBbox.go whose assembly body is not under
src/) is reconstructed from that contract. -/
def BBox.extend (a b : BBox) : BBox :=
  ⟨min a.MinX b.MinX, min a.MinY b.MinY, max a.MaxX b.MaxX, max a.MaxY b.MaxY⟩

/-- Arena node (src/RTree.go, type Node).  The fixed-size array
children [MAX_POSSIBLE_ENTRIES]int together with the childrenLength count
is modelled as the list of the first childrenLength entries.  The Go field
named end is called stop here (end is a Lean keyword). -/
structure Node where
  children : List ℕ
  height : ℤ
  isLeaf : Bool
  start : ℕ
  stop : ℕ
  BBox : BBox
deriving DecidableEq, Repr

instance : Inhabited Node := ⟨⟨[], 0, false, 0, 0, default⟩⟩

/-- FlatPoints ([]float64 of even length, read pairwise through GetPointAt)
modelled as a list of coordinate pairs. -/
abbrev FlatPoints := List (ℚ × ℚ)

/-- src/RTree.go, FlatPoints.Len. -/
def FlatPoints.Len (fp : FlatPoints) : ℕ := fp.length

/-- src/RTree.go, FlatPoints.GetPointAt. -/
def FlatPoints.GetPointAt (fp : FlatPoints) (i : ℕ) : ℚ × ℚ := fp.getD i (0, 0)

/-- src/RTree.go, func sortFloats. -/
def sortFloats (x1 x2 : ℚ) : ℚ × ℚ := if x1 > x2 then (x2, x1) else (x1, x2)

/-- src/RTree.go, func minInt. -/
def minInt (a b : ℕ) : ℕ := if a < b then a else b

/-- src/RTree.go, func computeSize (capacity hint of the node arena; the
idealized list model has no capacity, the definition is kept for record). -/
def computeSize (n : ℕ) : ℕ := 2 * n

/-- src/RTree.go, func (n * Node) computeDistances. -/
def Node.computeDistances (n : Node) (x y : ℚ) : ℚ × ℚ :=
  if n.isLeaf then
    let d := (x - n.BBox.MinX) * (x - n.BBox.MinX) +
             (y - n.BBox.MinY) * (y - n.BBox.MinY)
    (d, d)
  else
    let px := sortFloats ((x - n.BBox.MinX) * (x - n.BBox.MinX))
                         ((x - n.BBox.MaxX) * (x - n.BBox.MaxX))
    let py := sortFloats ((y - n.BBox.MinY) * (y - n.BBox.MinY))
                         ((y - n.BBox.MaxY) * (y - n.BBox.MaxY))
    let sideX := (n.BBox.MaxX - n.BBox.MinX) * (n.BBox.MaxX - n.BBox.MinX)
    let sideY := (n.BBox.MaxY - n.BBox.MinY) * (n.BBox.MaxY - n.BBox.MinY)
    let mind :=
      if px.2 < sideX ∧ py.2 < sideY then 0
      else if px.2 < sideX then py.1
      else if py.2 < sideY then px.1
      else px.1 + py.1
    (mind, px.2 + py.2)

/-! ### The partial sorter

The xSorter/ySorter types and their Sort method live in a repository file
that is not under src/.  Spec section 4.2: Sort operates in place on a
contiguous range of the point sequence, partitioning it into fixed-size
contiguous buckets such that every point of bucket i has the selected
coordinate at most that of every point of bucket i+1; order inside a bucket
is unspecified.  A full sort of the range by the selected coordinate is an
instance of that contract; the model below uses an insertion sort.  All
theorems in this file depend only on the sorter being an in-place
permutation of the designated range, which every instance of the contract
satisfies. -/

/-- Insert a point into a list sorted by the key (helper of the sorter
model). -/
def insertByKey (key : ℚ × ℚ → ℚ) (p : ℚ × ℚ) : List (ℚ × ℚ) → List (ℚ × ℚ)
  | [] => [p]
  | q :: rest =>
    if key p ≤ key q then p :: q :: rest else q :: insertByKey key p rest

/-- Insertion sort by a key (helper of the sorter model). -/
def sortByKey (key : ℚ × ℚ → ℚ) : List (ℚ × ℚ) → List (ℚ × ℚ)
  | [] => []
  | p :: rest => insertByKey key p (sortByKey key rest)

/-- Modelled from the spec: the partial sorter applied to the subrange
with positions s inclusive to e exclusive, keyed by one coordinate
(spec section 4.2); positions outside the range are untouched. -/
def sortRange (key : ℚ × ℚ → ℚ) (points : FlatPoints) (s e : ℕ) : FlatPoints :=
  points.take s ++ sortByKey key ((points.drop s).take (e - s)) ++
    points.drop (s + (e - s))

/-! ### The bulk loader -/

/-- The contiguous buckets that the loops
for i := 0; i < len; i += step (src/RTree.go, buildNodeDownwards and the
analogous inner loop) cut the half-open interval from off to off+len into:
bucket bounds (absolute start, absolute stop), each stop clipped with
minInt.  The first argument is a structural-recursion counter; any counter
at least len produces all buckets when step is at least 1. -/
def bucketBoundsAux (step : ℕ) : ℕ → ℕ → ℕ → List (ℕ × ℕ)
  | 0, _, _ => []
  | k + 1, off, len =>
    if len = 0 then []
    else (off, off + minInt step len) ::
      bucketBoundsAux step k (off + minInt step len) (len - step)

/-- Bucket bounds of the interval from off to off+len in steps of step. -/
def bucketBounds (off len step : ℕ) : List (ℕ × ℕ) :=
  bucketBoundsAux step len off len

/-- The mutable build state: the point sequence being permuted in place and
the growing node arena (fields points and nodes of SimpleRTree during
build). -/
structure BuildState where
  points : FlatPoints
  nodes : List Node
deriving DecidableEq, Repr

/-- src/RTree.go, func setLeafNode: materialize node i as a leaf parent,
one leaf child per point of its range, each leaf bbox degenerate at its
point. -/
def setLeafNode (st : BuildState) (i : ℕ) : BuildState :=
  let n := st.nodes.getD i default
  let cnt := n.stop - n.start
  let leaves := (List.range cnt).map fun j =>
    let p := st.points.GetPointAt (n.start + j)
    ({ children := [], height := 0, isLeaf := true,
       start := n.start + j, stop := n.start + j + 1,
       BBox := ⟨p.1, p.2, p.1, p.2⟩ } : Node)
  let ch := (List.range cnt).map (st.nodes.length + ·)
  let n' := { n with children := ch, height := 1 }
  ⟨st.points, st.nodes.set i n' ++ leaves⟩

/-- A fresh child node covering one Y sub-bucket (src/RTree.go,
buildNodeDownwards, the inner loop body). -/
def mkChild (h : ℤ) (b : ℕ × ℕ) : Node :=
  { children := [], height := h - 1, isLeaf := false,
    start := b.1, stop := b.2, BBox := default }

/-- The child nodes one X bucket contributes: one node of height h-1 per
Y sub-bucket of size N2. -/
def kidsOf (h : ℤ) (N2 : ℕ) (b : ℕ × ℕ) : List Node :=
  (bucketBounds b.1 (b.2 - b.1) N2).map (mkChild h)

/-- src/RTree.go, buildNodeDownwards, the branch for an internal node:
partial-sort the range by X into buckets of size N1 (skipped when already
sorted), partial-sort each X bucket by Y into sub-buckets of size N2, and
append one child node per Y sub-bucket, recording the child indices. -/
def buildInternalNode (st : BuildState) (i : ℕ) (isSorted : Bool)
    (N1 N2 : ℕ) : BuildState :=
  let n := st.nodes.getD i default
  let pts0 := if isSorted then st.points
              else sortRange Prod.fst st.points n.start n.stop
  let acc := (bucketBounds n.start (n.stop - n.start) N1).foldl
    (fun (acc : FlatPoints × List Node) b =>
      (sortRange Prod.snd acc.1 b.1 b.2, acc.2 ++ kidsOf n.height N2 b))
    (pts0, [])
  let n' := { n with
    children := (List.range acc.2.length).map (st.nodes.length + ·) }
  ⟨acc.1, st.nodes.set i n' ++ acc.2⟩

/-- Integer ceiling square root: the least s with s*s at least m.  This is
the exact value of int(math.Ceil(math.Sqrt(m))) for the arguments the
build can produce (m between 1 and 9, where float sqrt is exact). -/
def ceilSqrtNat (m : ℕ) : ℕ := if m = 0 then 0 else Nat.sqrt (m - 1) + 1

/-- Ceiling square root on ℤ (negative arguments, which the build never
produces, clamp to 0). -/
def intCeilSqrt (z : ℤ) : ℤ := (ceilSqrtNat z.toNat : ℤ)

/-- The target slice count M = Ceil(N / MAX_ENTRIES^(height-1)) of
buildNodeDownwards (named Mc here; exact-arithmetic model of the float64
computation). -/
def mcOf (M : ℕ) (n : Node) : ℤ :=
  ⌈((n.stop - n.start : ℕ) : ℚ) / ((M : ℚ) ^ (n.height - 1))⌉

/-- The Y sub-bucket size N2 = Ceil(N / Mc) of buildNodeDownwards. -/
def n2Of (M : ℕ) (n : Node) : ℤ :=
  ⌈((n.stop - n.start : ℕ) : ℚ) / ((mcOf M n : ℤ) : ℚ)⌉

/-- The X bucket size N1 = N2 * Ceil(Sqrt Mc) of buildNodeDownwards. -/
def n1Of (M : ℕ) (n : Node) : ℤ := n2Of M n * intCeilSqrt (mcOf M n)

/-- src/RTree.go, func buildNodeDownwards: resolve node i.  Already a leaf:
nothing to do.  Range of at most MAX_ENTRIES points: leaf parent.
Otherwise compute the slice parameters mcOf, n2Of, n1Of above and split
into children. -/
def buildStep (M : ℕ) (st : BuildState) (i : ℕ) (isSorted : Bool) :
    BuildState :=
  let n := st.nodes.getD i default
  if n.isLeaf then st
  else
    if n.stop - n.start ≤ M then setLeafNode st i
    else
      buildInternalNode st i isSorted (n1Of M n).toNat (n2Of M n).toNat

/-- src/RTree.go, the worklist loop of func build: process arena nodes in
index order while unresolved nodes remain.  Processing an already-leaf
node is a no-op, so running the index all the way to the end of the arena
is observationally the same as the nodesRemaining counter of the source.
The fuel argument is a structural-recursion counter; buildFuel below is
enough for it never to run out. -/
def buildLoop (M : ℕ) : ℕ → BuildState → ℕ → Bool → BuildState
  | 0, st, _, _ => st
  | fuel + 1, st, i, isSorted =>
    if i < st.nodes.length then
      buildLoop M fuel (buildStep M st i isSorted) (i + 1) false
    else st

/-- Fuel that always suffices for buildLoop (proved below). -/
def buildFuel (M N : ℕ) : ℕ := N * (Nat.clog M N + 2) + 2

/-- src/RTree.go, the recursive bbox propagation of func
computeBBoxDownwards: set the bbox of every node below i to its children's
merge, bottom up, and return the bbox of i.  For a leaf the write of its
own bbox to itself is a no-op and is omitted.  The fuel argument is a
structural-recursion counter; any fuel above the arena length is enough
because child indices exceed parent indices. -/
def computeBBoxDownwards (nodes : List Node) : ℕ → ℕ → List Node × BBox
  | 0, i => (nodes, (nodes.getD i default).BBox)
  | fuel + 1, i =>
    let n := nodes.getD i default
    if n.isLeaf then (nodes, n.BBox)
    else
      match n.children with
      | [] => (nodes, n.BBox)
      | c :: cs =>
        let r0 := computeBBoxDownwards nodes fuel c
        let r := cs.foldl (fun (acc : List Node × BBox) ci =>
          let rc := computeBBoxDownwards acc.1 fuel ci
          (rc.1, acc.2.extend rc.2)) r0
        (r.1.set i { r.1.getD i default with BBox := r.2 }, r.2)

/-- src/RTree.go, type Options. -/
structure Options where
  MAX_ENTRIES : ℕ
deriving DecidableEq, Repr

/-- src/RTree.go, const MAX_POSSIBLE_ENTRIES. -/
def MAX_POSSIBLE_ENTRIES : ℕ := 9

/-- src/RTree.go, type SimpleRTree.  The two pool fields record only
whether the pool pointer is non-nil (see the header comment). -/
structure SimpleRTree where
  options : Options
  nodes : List Node
  points : FlatPoints
  built : Bool
  queueItemPoolPool : Bool
  queuePool : Bool
deriving DecidableEq, Repr

/-- src/RTree.go, func NewWithOptions.  MAX_ENTRIES above
MAX_POSSIBLE_ENTRIES hits log.Fatal (the Go message names the maximum). -/
def NewWithOptions (options : Options) : GoResult SimpleRTree :=
  if options.MAX_ENTRIES > MAX_POSSIBLE_ENTRIES then .fatal
  else .ok { options := options, nodes := [], points := [], built := false,
             queueItemPoolPool := false, queuePool := false }

/-- src/RTree.go, func New. -/
def New : GoResult SimpleRTree := NewWithOptions { MAX_ENTRIES := 9 }

/-- src/RTree.go, func build: seed the arena with the root node (height
Ceil(Log N / Log MAX_ENTRIES), exact-arithmetic model Nat.clog, covering
the whole sequence), run the worklist loop, then propagate bboxes. -/
def SimpleRTree.build (r : SimpleRTree) (points : FlatPoints)
    (isSorted : Bool) : SimpleRTree :=
  let M := r.options.MAX_ENTRIES
  let N := points.Len
  let root : Node := { children := [], height := (Nat.clog M N : ℤ),
                       isLeaf := false, start := 0, stop := N,
                       BBox := default }
  let st := buildLoop M (buildFuel M N) ⟨points, [root]⟩ 0 isSorted
  let nodes2 := (computeBBoxDownwards st.nodes (st.nodes.length + 1) 0).1
  { r with points := st.points, nodes := nodes2 }

/-- src/RTree.go, func load: an empty sequence returns the tree as is; a
second load of a built tree hits log.Fatal; otherwise mark built, build,
and initialise the two pools. -/
def SimpleRTree.load (r : SimpleRTree) (points : FlatPoints)
    (isSorted : Bool) : GoResult SimpleRTree :=
  if points.Len = 0 then .ok r
  else if r.built then .fatal
  else
    let r1 := ({ r with built := true } : SimpleRTree).build points isSorted
    .ok { r1 with queueItemPoolPool := true, queuePool := true }

/-- src/RTree.go, func Load. -/
def SimpleRTree.Load (r : SimpleRTree) (points : FlatPoints) :
    GoResult SimpleRTree := r.load points false

/-- src/RTree.go, func LoadSortedArray. -/
def SimpleRTree.LoadSortedArray (r : SimpleRTree) (points : FlatPoints) :
    GoResult SimpleRTree := r.load points true

/-! ### The nearest-neighbor engine -/

/-- Pop a minimal-distance item from the queue (model of heap.Pop on the
searchQueue, see the header comment). -/
def popMinD : List (ℕ × ℚ) → Option ((ℕ × ℚ) × List (ℕ × ℚ))
  | [] => none
  | x :: xs =>
    match popMinD xs with
    | none => some (x, [])
    | some (m, rest) =>
      if x.2 ≤ m.2 then some (x, xs) else some (m, x :: rest)

/-- The search result quadruple of findNearestPointWithin.  The Go value
d1 is the square root of the squared distance recorded here (math.Sqrt is
applied once, at the end); on not-found Go returns the zero values. -/
structure SearchResult where
  x1 : ℚ
  y1 : ℚ
  d1sq : WithTop ℚ
  found : Bool
deriving DecidableEq, Repr

/-- The branch-and-bound loop of src/RTree.go, findNearestPointWithin
(lines 99 to 130): pop the minimal item; stop when a best leaf exists
and the popped bound exceeds it; record a popped leaf as best; for an
internal node push each child whose lower bound is at most the upper
bound and tighten the upper bound by any smaller child upper bound.
Returns the recorded best item and the final upper bound.  The pool
give-backs and the drain loop only recycle allocations and are omitted. -/
def searchLoop (nodes : List Node) (x y : ℚ) :
    ℕ → List (ℕ × ℚ) → Option (ℕ × ℚ) → WithTop ℚ → WithTop ℚ →
    Option (ℕ × ℚ) × WithTop ℚ
  | 0, _, minItem, _, ub => (minItem, ub)
  | fuel + 1, queue, minItem, lb, ub =>
    match popMinD queue with
    | none => (minItem, ub)
    | some (item, rest) =>
      if minItem.isSome ∧ lb < (item.2 : WithTop ℚ) then (minItem, ub)
      else
        let n := nodes.getD item.1 default
        if n.isLeaf then
          searchLoop nodes x y fuel rest (some item) (item.2 : WithTop ℚ) ub
        else
          let st := n.children.foldl
            (fun (acc : List (ℕ × ℚ) × WithTop ℚ) c =>
              let m := nodes.getD c default
              let md := m.computeDistances x y
              ((if (md.1 : WithTop ℚ) ≤ acc.2 then (c, md.1) :: acc.1
                else acc.1),
               (if (md.2 : WithTop ℚ) < acc.2 then (md.2 : WithTop ℚ)
                else acc.2)))
            (rest, ub)
          searchLoop nodes x y fuel st.1 minItem lb st.2

/-- src/RTree.go, func findNearestPointWithin.  On a tree that was never
loaded with points the pools are nil and the arena is empty, so the very
first statements crash (nil dereference of queuePool, then of
queueItemPoolPool, then nodes[0] out of range). -/
def SimpleRTree.findNearestPointWithin (r : SimpleRTree) (x y : ℚ)
    (d : WithTop ℚ) : GoResult SearchResult :=
  if ¬ r.queuePool then .crash
  else if ¬ r.queueItemPoolPool then .crash
  else if r.nodes.length = 0 then .crash
  else
    let rootNode := r.nodes.getD 0 default
    let md := rootNode.computeDistances x y
    let ub0 := if (md.2 : WithTop ℚ) < d then (md.2 : WithTop ℚ) else d
    let queue0 : List (ℕ × ℚ) :=
      if (md.1 : WithTop ℚ) < ub0 then [(0, md.1)] else []
    let res := searchLoop r.nodes x y (r.nodes.length + 1) queue0 none ⊤ ub0
    match res.1 with
    | none => .ok ⟨0, 0, 0, false⟩
    | some item =>
      let n := r.nodes.getD item.1 default
      .ok ⟨n.BBox.MaxX, n.BBox.MaxY, res.2, true⟩

/-- src/RTree.go, func FindNearestPoint (maxDistance is plus infinity). -/
def SimpleRTree.FindNearestPoint (r : SimpleRTree) (x y : ℚ) :
    GoResult SearchResult := r.findNearestPointWithin x y ⊤

/-- src/RTree.go, func FindNearestPointWithin (works with the squared
distance d*d). -/
def SimpleRTree.FindNearestPointWithin (r : SimpleRTree) (x y d : ℚ) :
    GoResult SearchResult := r.findNearestPointWithin x y ((d * d : ℚ) : WithTop ℚ)

/-- The public construction pipeline: NewWithOptions followed by Load. -/
def loadTree (M : ℕ) (points : FlatPoints) : GoResult SimpleRTree :=
  match NewWithOptions { MAX_ENTRIES := M } with
  | .ok r => r.Load points
  | .fatal => .fatal
  | .crash => .crash

/-! ### Concrete trees used as failing inputs and counterexamples -/

/-- The tree the pipeline builds from the single point (0,0) with the
default fan-out 9 (checked by the claim theorems below): an internal root
wrapping one leaf, both bboxes degenerate at (0,0). -/
def oneTree : SimpleRTree where
  options := ⟨9⟩
  nodes := [⟨[1], 1, false, 0, 1, ⟨0, 0, 0, 0⟩⟩, ⟨[], 0, true, 0, 1, ⟨0, 0, 0, 0⟩⟩]
  points := [(0, 0)]
  built := true
  queueItemPoolPool := true
  queuePool := true

/-- The tree the pipeline builds from the single point (5,7) with
fan-out 2. -/
def oneTree2 : SimpleRTree where
  options := ⟨2⟩
  nodes := [⟨[1], 1, false, 0, 1, ⟨5, 7, 5, 7⟩⟩, ⟨[], 0, true, 0, 1, ⟨5, 7, 5, 7⟩⟩]
  points := [(5, 7)]
  built := true
  queueItemPoolPool := true
  queuePool := true

/-- The tree value NewWithOptions of the default options returns before
any load: empty arena, empty points, not built, nil pools. -/
def freshTree : SimpleRTree where
  options := ⟨9⟩
  nodes := []
  points := []
  built := false
  queueItemPoolPool := false
  queuePool := false

/-- A leaf node carrying a non-degenerate (but min/max ordered) bbox; such
a node never arises from the build (leaf bboxes are degenerate) but is a
legal value of the Node type. -/
def wideLeaf : Node := ⟨[], 0, true, 0, 1, ⟨0, 0, 1, 1⟩⟩

/-! ### Infrastructure for the build invariants -/

/-- The node stored at index j (default for out-of-range reads, which the
invariants rule out). -/
def nd (nodes : List Node) (j : ℕ) : Node := nodes.getD j default

/-- Ceiling division on naturals. -/
def cdiv (a b : ℕ) : ℕ := (a + b - 1) / b

/-- The positions of the point-sequence range a node covers. -/
def nrange (n : Node) : List ℕ := List.range' n.start (n.stop - n.start)

/-- A list of half-open intervals tiles the interval from a to b: each
starts where the previous stopped, each is nonempty, the first starts at
a and the last stops at b. -/
def ChainFrom : ℕ → ℕ → List (ℕ × ℕ) → Prop
  | a, b, [] => a = b
  | a, b, p :: rest => p.1 = a ∧ a < p.2 ∧ ChainFrom p.2 b rest

/-- The positions covered by the frontier of the build at worklist index
i: the ranges of the unresolved internal nodes (index at least i, not a
leaf) together with the ranges of all leaves.  The build invariant states
that this list is a permutation of all positions. -/
def frontierFlat (nodes : List Node) (i : ℕ) : List ℕ :=
  ((nodes.drop i).filter (fun n => !n.isLeaf) ++
    nodes.filter (fun n => n.isLeaf)).flatMap nrange

/-- Termination weight of one node. -/
def nodeWeight (n : Node) : ℕ :=
  if n.isLeaf then 0 else (n.stop - n.start) * (n.height + 1).toNat

/-- Termination measure of the worklist loop at index i. -/
def Phi (st : BuildState) (i : ℕ) : ℕ :=
  ((st.nodes.drop i).map nodeWeight).sum + (st.nodes.length - i)

/-- The root node func build seeds the arena with. -/
def rootNode (M N : ℕ) : Node :=
  { children := [], height := (Nat.clog M N : ℤ), isLeaf := false,
    start := 0, stop := N, BBox := default }

/-- The build state after the worklist loop of func build. -/
def builtState (M : ℕ) (pts : FlatPoints) (isSorted : Bool) : BuildState :=
  buildLoop M (buildFuel M pts.Len) ⟨pts, [rootNode M pts.Len]⟩ 0 isSorted

/-- The node arena after the worklist loop and the bbox propagation. -/
def finalNodes (M : ℕ) (pts : FlatPoints) (isSorted : Bool) : List Node :=
  (computeBBoxDownwards (builtState M pts isSorted).nodes
    ((builtState M pts isSorted).nodes.length + 1) 0).1

/-- The tree loadTree produces on a non-empty sequence with a legal
fan-out cap (established by loadTree_eq below). -/
def builtTree (M : ℕ) (pts : FlatPoints) : SimpleRTree :=
  { options := ⟨M⟩, nodes := finalNodes M pts false,
    points := (builtState M pts false).points, built := true,
    queueItemPoolPool := true, queuePool := true }

/-- Equality of two arenas up to bbox values of internal nodes: same
length, same structure fields everywhere, same bboxes on leaves.  The
bbox propagation pass only moves an arena within this relation. -/
def structEq (A B : List Node) : Prop :=
  A.length = B.length ∧ ∀ j,
    (nd A j).children = (nd B j).children ∧
    (nd A j).isLeaf = (nd B j).isLeaf ∧
    (nd A j).height = (nd B j).height ∧
    (nd A j).start = (nd B j).start ∧
    (nd A j).stop = (nd B j).stop ∧
    ((nd A j).isLeaf = true → (nd A j).BBox = (nd B j).BBox)

/-- The build invariant, at worklist index i, for fan-out cap M and an
initial point sequence P0 of length N. -/
structure Inv (M N : ℕ) (P0 : FlatPoints) (st : BuildState) (i : ℕ) : Prop where
  ptsLen : st.points.length = N
  ptsPerm : List.Perm st.points P0
  nodesNE : 1 ≤ st.nodes.length
  range_le : ∀ j < st.nodes.length, (nd st.nodes j).stop ≤ N
  range_lt : ∀ j < st.nodes.length, (nd st.nodes j).start < (nd st.nodes j).stop
  leaf_shape : ∀ j < st.nodes.length, (nd st.nodes j).isLeaf = true →
    (nd st.nodes j).stop = (nd st.nodes j).start + 1 ∧
    (nd st.nodes j).children = [] ∧
    (nd st.nodes j).BBox = ⟨(st.points.getD (nd st.nodes j).start (0, 0)).1,
                            (st.points.getD (nd st.nodes j).start (0, 0)).2,
                            (st.points.getD (nd st.nodes j).start (0, 0)).1,
                            (st.points.getD (nd st.nodes j).start (0, 0)).2⟩
  unprocessed : ∀ j < st.nodes.length, i ≤ j → (nd st.nodes j).isLeaf = false →
    (nd st.nodes j).children = [] ∧ 0 ≤ (nd st.nodes j).height ∧
    (nd st.nodes j).stop - (nd st.nodes j).start ≤ M ^ (nd st.nodes j).height.toNat
  processed : ∀ j < st.nodes.length, j < i → (nd st.nodes j).isLeaf = false →
    (nd st.nodes j).children ≠ [] ∧
    (nd st.nodes j).children.length ≤ MAX_POSSIBLE_ENTRIES ∧
    (∀ c ∈ (nd st.nodes j).children, j < c ∧ c < st.nodes.length) ∧
    ChainFrom (nd st.nodes j).start (nd st.nodes j).stop
      ((nd st.nodes j).children.map fun c =>
        ((nd st.nodes c).start, (nd st.nodes c).stop))
  parent : ∀ j, 1 ≤ j → j < st.nodes.length → ∃ p, p < j ∧ p < i ∧
    (nd st.nodes p).isLeaf = false ∧ j ∈ (nd st.nodes p).children
  frontier : List.Perm (frontierFlat st.nodes i) (List.range N)

/-! ## Theorems -/

/-- sortFloats returns the ordered pair. -/
theorem sortFloats_eq (a b : ℚ) : sortFloats a b = (min a b, max a b) := by
  unfold sortFloats
  split_ifs with h
  · rw [min_eq_right (le_of_lt h), max_eq_left (le_of_lt h)]
  · push_neg at h
    rw [min_eq_left h, max_eq_right h]

/-- If the larger of the two per-axis edge distances is not smaller than
the squared extent, the coordinate lies outside the open span. -/
theorem outside_span {X1 X2 x : ℚ}
    (h : ¬ (max ((x - X1) * (x - X1)) ((x - X2) * (x - X2)) <
            (X2 - X1) * (X2 - X1))) :
    x ≤ X1 ∨ X2 ≤ x := by
  by_contra hc
  push_neg at hc
  obtain ⟨h1, h2⟩ := hc
  apply h
  rw [max_lt_iff]
  constructor <;> nlinarith

/-- Outside the span, the smaller edge distance lower-bounds the squared
distance to any coordinate inside the span. -/
theorem min_edge_le {X1 X2 x px : ℚ} (hout : x ≤ X1 ∨ X2 ≤ x)
    (h1 : X1 ≤ px) (h2 : px ≤ X2) :
    min ((x - X1) * (x - X1)) ((x - X2) * (x - X2)) ≤ (x - px) * (x - px) := by
  rcases hout with h | h
  · exact le_trans (min_le_left _ _) (by nlinarith)
  · exact le_trans (min_le_right _ _) (by nlinarith)

/-- Outside the span but also inside the closed span, the smaller edge
distance is zero. -/
theorem min_edge_zero {X1 X2 x : ℚ} (hout : x ≤ X1 ∨ X2 ≤ x)
    (hin1 : X1 ≤ x) (hin2 : x ≤ X2) :
    min ((x - X1) * (x - X1)) ((x - X2) * (x - X2)) = 0 := by
  apply le_antisymm
  · rcases hout with h | h
    · have hx : x = X1 := le_antisymm h hin1
      apply le_trans (min_le_left _ _)
      rw [hx]
      ring_nf
      exact le_refl 0
    · have hx : x = X2 := le_antisymm hin2 h
      apply le_trans (min_le_right _ _)
      rw [hx]
      ring_nf
      exact le_refl 0
  · exact le_min (mul_self_nonneg _) (mul_self_nonneg _)

/-- C1.  The claim states that for every non-empty loaded tree and every
query, FindNearestPoint returns found = true with a minimal-distance input
point.  The code violates this: the tree bulk-loaded from the single point
(0,0) (default fan-out 9) answers FindNearestPoint(1,0) with
found = false, although (0,0) is at distance 1.  Cause: for a degenerate
root bbox the two bounds of computeDistances coincide, the upper bound is
tightened to the root's upper bound first (line 88 of src/RTree.go), and
the root is then pushed only under the strict test mind less-than
distanceUpperBound (line 92), which fails; the queue stays empty and no
point is ever recorded. -/
theorem C1_nearest_misses_single_point_tree :
    loadTree 9 [((0 : ℚ), (0 : ℚ))] = .ok oneTree ∧
    oneTree.FindNearestPoint 1 0 = .ok ⟨0, 0, 0, false⟩ := by
  with_unfolding_all decide

/-- C2.  The claim states that FindNearestPointWithin(x,y,r) reports
not-found exactly when the brute-force minimum distance exceeds r, and in
particular that with r = 0 an exactly coincident point is found.  The code
violates this: on the tree of the single point (0,0), the query
FindNearestPointWithin(0,0,0) returns found = false although the
coincident point (0,0) is at distance 0 = r.  Cause: with
distanceUpperBound = r*r = 0 the push test mind less-than
distanceUpperBound (strict, line 92 of src/RTree.go) can never succeed. -/
theorem C2_nearest_within_misses_coincident_point_at_radius_zero :
    loadTree 9 [((0 : ℚ), (0 : ℚ))] = .ok oneTree ∧
    oneTree.FindNearestPointWithin 0 0 0 = .ok ⟨0, 0, 0, false⟩ := by
  with_unfolding_all decide

/-- C3.  The claim states that loading an empty sequence is not an error
and that every subsequent query on the empty tree returns found = false
rather than failing.  The first half holds (Load returns normally and
leaves the tree untouched), but the second is violated: on the unloaded
tree the queries dereference the nil queue pools and index nodes[0] of the
empty arena, a runtime panic, instead of returning found = false. -/
theorem C3_empty_load_ok_but_queries_crash :
    New = .ok freshTree ∧
    freshTree.Load [] = .ok freshTree ∧
    (∀ x y : ℚ, freshTree.FindNearestPoint x y = .crash) ∧
    (∀ x y d : ℚ, freshTree.FindNearestPointWithin x y d = .crash) :=
  ⟨rfl, rfl, fun _ _ => rfl, fun _ _ _ => rfl⟩

/-- C4, counterexample.  The claim states that a fan-out cap above the
hard maximum 9 yields an error reported to the caller, not a
process-ending fault.  The code instead calls log.Fatal, which terminates
the process; no tree and no error value is ever returned. -/
theorem C4_counterexample_oversized_fanout_is_fatal :
    NewWithOptions ⟨10⟩ = .fatal := rfl

/-- C4, amended.  Constructing a tree with MAX_ENTRIES above the hard
maximum 9 triggers log.Fatal, a process-ending fault, before any tree
state is created; no tree and no caller-reportable error value is
returned. -/
theorem C4_oversized_fanout_hits_log_fatal (options : Options)
    (h : MAX_POSSIBLE_ENTRIES < options.MAX_ENTRIES) :
    NewWithOptions options = .fatal := by
  unfold NewWithOptions
  simp [h]

/-- C4, witness for the amended theorem at MAX_ENTRIES = 10. -/
theorem C4_oversized_fanout_hits_log_fatal_witness :
    MAX_POSSIBLE_ENTRIES < (10 : ℕ) ∧ NewWithOptions ⟨10⟩ = .fatal :=
  ⟨by decide, C4_oversized_fanout_hits_log_fatal ⟨10⟩ (by decide)⟩

/-- C5, counterexample.  The claim states that every second load attempt
on one instance is rejected as a caller-reportable misuse error.  On the
tree built from (0,0): a second load with a non-empty sequence hits
log.Fatal (process-ending, nothing is reported to the caller), and a
second load with an empty sequence is not rejected at all (the empty-input
early return precedes the built check and silently returns the tree). -/
theorem C5_counterexample_second_load :
    loadTree 9 [((0 : ℚ), (0 : ℚ))] = .ok oneTree ∧
    oneTree.Load [((1 : ℚ), (1 : ℚ))] = .fatal ∧
    oneTree.Load [] = .ok oneTree := by
  with_unfolding_all decide

/-- C5, amended.  On a tree whose build has completed (built = true), a
second load with a non-empty point sequence hits log.Fatal, a
process-ending fault, before mutating the tree; a second load with an
empty point sequence is silently accepted and returns the tree
unchanged.  No caller-reportable error value exists on either path. -/
theorem C5_second_load_behaviour (r : SimpleRTree) (pts : FlatPoints)
    (isSorted : Bool) (h : r.built = true) :
    (pts.Len ≠ 0 → r.load pts isSorted = .fatal) ∧
    (pts.Len = 0 → r.load pts isSorted = .ok r) := by
  unfold SimpleRTree.load
  constructor
  · intro hne
    simp [hne, h]
  · intro he
    simp [he]

/-- C5, witness for the amended theorem on the tree built from (0,0). -/
theorem C5_second_load_behaviour_witness :
    oneTree.built = true ∧
    (oneTree.load [((1 : ℚ), (1 : ℚ))] false = .fatal) ∧
    (oneTree.load [] false = .ok oneTree) :=
  ⟨rfl,
   (C5_second_load_behaviour oneTree [((1 : ℚ), (1 : ℚ))] false rfl).1
     (by decide),
   (C5_second_load_behaviour oneTree [] false rfl).2 rfl⟩

/-- C6, counterexample.  The claim states that the built root's height
equals the ceiling of the base-M logarithm of N (Nat.clog M N).  For
N = 1 this fails: the build first seeds the root with
Ceil(Log 1 / Log M) = 0, but setLeafNode then overwrites the height of
the leaf-parent root with 1, while Nat.clog M 1 = 0. -/
theorem C6_counterexample_height_of_singleton :
    loadTree 2 [((5 : ℚ), (7 : ℚ))] = .ok oneTree2 ∧
    (oneTree2.nodes.getD 0 default).height = 1 ∧
    Nat.clog 2 (FlatPoints.Len [((5 : ℚ), (7 : ℚ))]) = 0 := by
  with_unfolding_all decide

/-- C8, counterexample.  The claim quantifies over every node whose bbox
is min/max ordered.  For a leaf node computeDistances returns the exact
squared distance to the min corner for both bounds, so for a leaf whose
bbox is not degenerate the lower bound can exceed the distance to a point
of the box: for wideLeaf (bbox from (0,0) to (1,1)) and query (2,2), the
returned lower bound is 8, yet the box point (1/2, 1/2) is at squared
distance 9/2. -/
theorem C8_counterexample_wide_leaf :
    wideLeaf.BBox.MinX ≤ wideLeaf.BBox.MaxX ∧
    wideLeaf.BBox.MinY ≤ wideLeaf.BBox.MaxY ∧
    wideLeaf.BBox.MinX ≤ 1 / 2 ∧ (1 / 2 : ℚ) ≤ wideLeaf.BBox.MaxX ∧
    wideLeaf.BBox.MinY ≤ 1 / 2 ∧ (1 / 2 : ℚ) ≤ wideLeaf.BBox.MaxY ∧
    ¬ ((wideLeaf.computeDistances 2 2).1 ≤
        (2 - 1 / 2) * (2 - 1 / 2) + (2 - 1 / 2) * (2 - 1 / 2)) := by
  with_unfolding_all decide

/-- C8, amended: the degeneracy the build guarantees for leaf bboxes is
added as a hypothesis.  For every node n whose bbox satisfies
MinX ≤ MaxX and MinY ≤ MaxY (degenerate if n is a leaf) and every query
(x,y), computeDistances returns (mind, maxd) with: mind at most the
squared distance from (x,y) to every point of the closed box; mind = 0
whenever (x,y) lies in the closed box; maxd equal to the largest of the
squared distances to the four corners (the farthest-corner distance);
and hence maxd an upper bound on the squared distance to at least one
point of the box. -/
theorem C8_computeDistances_bounds (n : Node) (x y : ℚ)
    (hx : n.BBox.MinX ≤ n.BBox.MaxX) (hy : n.BBox.MinY ≤ n.BBox.MaxY)
    (hleaf : n.isLeaf = true →
      n.BBox.MinX = n.BBox.MaxX ∧ n.BBox.MinY = n.BBox.MaxY) :
    (∀ px py, n.BBox.MinX ≤ px → px ≤ n.BBox.MaxX →
      n.BBox.MinY ≤ py → py ≤ n.BBox.MaxY →
      (n.computeDistances x y).1 ≤ (x - px) * (x - px) + (y - py) * (y - py)) ∧
    (n.BBox.MinX ≤ x → x ≤ n.BBox.MaxX → n.BBox.MinY ≤ y → y ≤ n.BBox.MaxY →
      (n.computeDistances x y).1 = 0) ∧
    ((n.computeDistances x y).2 =
      max (max ((x - n.BBox.MinX) * (x - n.BBox.MinX) +
                (y - n.BBox.MinY) * (y - n.BBox.MinY))
               ((x - n.BBox.MinX) * (x - n.BBox.MinX) +
                (y - n.BBox.MaxY) * (y - n.BBox.MaxY)))
          (max ((x - n.BBox.MaxX) * (x - n.BBox.MaxX) +
                (y - n.BBox.MinY) * (y - n.BBox.MinY))
               ((x - n.BBox.MaxX) * (x - n.BBox.MaxX) +
                (y - n.BBox.MaxY) * (y - n.BBox.MaxY)))) ∧
    (∃ px py, n.BBox.MinX ≤ px ∧ px ≤ n.BBox.MaxX ∧
      n.BBox.MinY ≤ py ∧ py ≤ n.BBox.MaxY ∧
      (x - px) * (x - px) + (y - py) * (y - py) ≤ (n.computeDistances x y).2) := by
  obtain ⟨ch, ht, lf, st, en, X1, Y1, X2, Y2⟩ := n
  simp only at hx hy hleaf ⊢
  cases lf with
  | true =>
    obtain ⟨ex, ey⟩ := hleaf rfl
    have hred : Node.computeDistances ⟨ch, ht, true, st, en, ⟨X1, Y1, X2, Y2⟩⟩ x y =
        ((x - X1) * (x - X1) + (y - Y1) * (y - Y1),
         (x - X1) * (x - X1) + (y - Y1) * (y - Y1)) := by
      simp [Node.computeDistances]
    rw [hred]
    refine ⟨?_, ?_, ?_, ?_⟩
    · intro px py h1 h2 h3 h4
      have hpx : px = X1 := le_antisymm (ex ▸ h2) h1
      have hpy : py = Y1 := le_antisymm (ey ▸ h4) h3
      rw [hpx, hpy]
    · intro h1 h2 h3 h4
      have hxx : x = X1 := le_antisymm (ex ▸ h2) h1
      have hyy : y = Y1 := le_antisymm (ey ▸ h4) h3
      rw [hxx, hyy]
      ring
    · rw [← ex, ← ey]
      simp [max_self]
    · exact ⟨X1, Y1, le_refl _, hx, le_refl _, hy, le_refl _⟩
  | false =>
    set A := (x - X1) * (x - X1) with hA
    set B := (x - X2) * (x - X2) with hB
    set C := (y - Y1) * (y - Y1) with hC
    set D := (y - Y2) * (y - Y2) with hD
    have hred : Node.computeDistances ⟨ch, ht, false, st, en, ⟨X1, Y1, X2, Y2⟩⟩ x y =
        ((if max A B < (X2 - X1) * (X2 - X1) ∧ max C D < (Y2 - Y1) * (Y2 - Y1) then 0
          else if max A B < (X2 - X1) * (X2 - X1) then min C D
          else if max C D < (Y2 - Y1) * (Y2 - Y1) then min A B
          else min A B + min C D),
         max A B + max C D) := by
      simp [Node.computeDistances, sortFloats_eq]
    rw [hred]
    dsimp only
    refine ⟨?_, ?_, ?_, ?_⟩
    · intro px py h1 h2 h3 h4
      have hq1 : (0 : ℚ) ≤ (x - px) * (x - px) := mul_self_nonneg _
      have hq2 : (0 : ℚ) ≤ (y - py) * (y - py) := mul_self_nonneg _
      split_ifs with hin hsx hsy
      · nlinarith
      · have hout := outside_span (fun hlt => hin ⟨hsx, hlt⟩)
        have h5 := min_edge_le hout h3 h4
        rw [← hC, ← hD] at h5
        nlinarith
      · have h5 := min_edge_le (outside_span hsx) h1 h2
        rw [← hA, ← hB] at h5
        nlinarith
      · have h5 := min_edge_le (outside_span hsx) h1 h2
        have h6 := min_edge_le (outside_span hsy) h3 h4
        rw [← hA, ← hB] at h5
        rw [← hC, ← hD] at h6
        nlinarith
    · intro h1 h2 h3 h4
      split_ifs with hin hsx hsy
      · rfl
      · have h5 := min_edge_zero (outside_span (fun hlt => hin ⟨hsx, hlt⟩)) h3 h4
        rw [← hC, ← hD] at h5
        exact h5
      · have h5 := min_edge_zero (outside_span hsx) h1 h2
        rw [← hA, ← hB] at h5
        exact h5
      · have h5 := min_edge_zero (outside_span hsx) h1 h2
        have h6 := min_edge_zero (outside_span hsy) h3 h4
        rw [← hA, ← hB] at h5
        rw [← hC, ← hD] at h6
        rw [h5, h6]
        ring
    · rw [max_add_add_left, max_add_add_left, max_add_add_right]
    · refine ⟨if B ≤ A then X1 else X2, if D ≤ C then Y1 else Y2,
        ?_, ?_, ?_, ?_, ?_⟩
      · split_ifs
        · exact le_refl _
        · exact hx
      · split_ifs
        · exact hx
        · exact le_refl _
      · split_ifs
        · exact le_refl _
        · exact hy
      · split_ifs
        · exact hy
        · exact le_refl _
      · split_ifs with h5 h6 h6
        · rw [max_eq_left h5, max_eq_left h6]
        · rw [max_eq_left h5, max_eq_right (le_of_not_le h6)]
        · rw [max_eq_right (le_of_not_le h5), max_eq_left h6]
        · rw [max_eq_right (le_of_not_le h5), max_eq_right (le_of_not_le h6)]

/-- C8, witness for the amended theorem: the internal root node of the
tree built from (0,0) (bbox degenerate at the origin, so the hypotheses
hold) queried from (1,0); the recorded bounds evaluate to (1,1). -/
theorem C8_computeDistances_bounds_witness :
    ((oneTree.nodes.getD 0 default).BBox.MinX ≤
        (oneTree.nodes.getD 0 default).BBox.MaxX ∧
      (oneTree.nodes.getD 0 default).BBox.MinY ≤
        (oneTree.nodes.getD 0 default).BBox.MaxY) ∧
    ((oneTree.nodes.getD 0 default).computeDistances 1 0).1 = 1 ∧
    (∀ px py, (oneTree.nodes.getD 0 default).BBox.MinX ≤ px →
      px ≤ (oneTree.nodes.getD 0 default).BBox.MaxX →
      (oneTree.nodes.getD 0 default).BBox.MinY ≤ py →
      py ≤ (oneTree.nodes.getD 0 default).BBox.MaxY →
      ((oneTree.nodes.getD 0 default).computeDistances 1 0).1 ≤
        (1 - px) * (1 - px) + (0 - py) * (0 - py)) :=
  ⟨⟨by decide, by decide⟩, by with_unfolding_all decide,
    (C8_computeDistances_bounds (oneTree.nodes.getD 0 default) 1 0
      (by decide) (by decide) (by decide)).1⟩

/-! ### List utilities -/

theorem nd_eq (l : List Node) (j : ℕ) : nd l j = l[j]?.getD default := by
  rw [nd, List.getD_eq_getElem?_getD]

theorem nd_set_self {l : List Node} {i : ℕ} (h : i < l.length) (x : Node) :
    nd (l.set i x) i = x := by
  rw [nd_eq, List.getElem?_set_self (by simpa using h)]
  rfl

theorem nd_set_ne {l : List Node} {i j : ℕ} (h : i ≠ j) (x : Node) :
    nd (l.set i x) j = nd l j := by
  rw [nd_eq, nd_eq, List.getElem?_set_ne h]

theorem nd_append_left {A B : List Node} {j : ℕ} (h : j < A.length) :
    nd (A ++ B) j = nd A j := by
  rw [nd_eq, nd_eq, List.getElem?_append_left h]

theorem nd_append_right (A B : List Node) (t : ℕ) :
    nd (A ++ B) (A.length + t) = nd B t := by
  rw [nd_eq, nd_eq]
  congr 1
  rw [List.getElem?_append_right (by omega)]
  congr 1
  omega

theorem nd_set_append_of_ne {A B : List Node} {i j : ℕ} (x : Node)
    (hne : j ≠ i) (hj : j < A.length) :
    nd (A.set i x ++ B) j = nd A j := by
  rw [nd_append_left (by simpa using hj), nd_set_ne (Ne.symm hne)]

/-- Reading the new nodes appended after a set-and-append step. -/
theorem nd_set_append_new {A B : List Node} {i : ℕ} (x : Node) (t : ℕ) :
    nd (A.set i x ++ B) (A.length + t) = nd B t := by
  have h : (A.set i x).length = A.length := by simp
  rw [← h, nd_append_right]

/-- Mapping a function over the freshly appended block through its
indices. -/
theorem map_range_nd_append {β : Type} (g : Node → β) :
    ∀ (B A : List Node),
      ((List.range B.length).map fun t => g (nd (A ++ B) (A.length + t))) =
        B.map g
  | [], _ => rfl
  | b :: B', A => by
    rw [List.length_cons, List.range_succ_eq_map, List.map_cons, List.map_map]
    have h0 : nd (A ++ b :: B') (A.length + 0) = b := by
      rw [nd_append_right A (b :: B') 0]
      rfl
    rw [List.map_cons, h0]
    congr 1
    have heq : ∀ t ∈ List.range B'.length,
        ((fun t => g (nd (A ++ b :: B') (A.length + t))) ∘ Nat.succ) t =
          g (nd ((A ++ [b]) ++ B') ((A ++ [b]).length + t)) := by
      intro t _
      have hidx : (A ++ [b]).length + t = A.length + (t + 1) := by
        simp
        omega
      show g (nd (A ++ b :: B') (A.length + (t + 1))) = _
      rw [List.append_assoc, hidx]
      rfl
    rw [List.map_congr_left heq, map_range_nd_append g B' (A ++ [b])]

theorem drop_set_of_lt (l : List Node) (i k : ℕ) (x : Node) (h : i < k) :
    (l.set i x).drop k = l.drop k := by
  ext1 t
  rw [List.getElem?_drop, List.getElem?_drop, List.getElem?_set_ne (by omega)]

theorem take_set_of_le (l : List Node) (i k : ℕ) (x : Node) (h : k ≤ i) :
    (l.set i x).take k = l.take k := by
  ext1 t
  rw [List.getElem?_take, List.getElem?_take]
  split_ifs with ht
  · rw [List.getElem?_set_ne (by omega)]
  · rfl

/-! ### Sorter-model lemmas: in-place permutation of the range -/

theorem insertByKey_perm (key : ℚ × ℚ → ℚ) (p : ℚ × ℚ) :
    ∀ l, List.Perm (insertByKey key p l) (p :: l)
  | [] => .refl _
  | q :: rest => by
    unfold insertByKey
    split_ifs with h
    · exact .refl _
    · exact ((insertByKey_perm key p rest).cons q).trans
        (List.Perm.swap p q rest)

theorem sortByKey_perm (key : ℚ × ℚ → ℚ) :
    ∀ l, List.Perm (sortByKey key l) l
  | [] => .refl _
  | p :: rest => (insertByKey_perm key p (sortByKey key rest)).trans
      ((sortByKey_perm key rest).cons p)

theorem sortRange_perm (key : ℚ × ℚ → ℚ) (pts : FlatPoints) (s e : ℕ) :
    List.Perm (sortRange key pts s e) pts := by
  unfold sortRange
  have h2 : (pts.drop s).drop (e - s) = pts.drop (s + (e - s)) := by
    rw [List.drop_drop]
  have hsplit : pts = pts.take s ++ ((pts.drop s).take (e - s) ++
      pts.drop (s + (e - s))) := by
    rw [← h2, List.take_append_drop, List.take_append_drop]
  rw [List.append_assoc]
  conv_rhs => rw [hsplit]
  exact ((sortByKey_perm key _).append_right _).append_left _

theorem sortRange_length (key : ℚ × ℚ → ℚ) (pts : FlatPoints) (s e : ℕ) :
    (sortRange key pts s e).length = pts.length :=
  (sortRange_perm key pts s e).length_eq

theorem sortRange_getD_outside (key : ℚ × ℚ → ℚ) (pts : FlatPoints)
    {s e t : ℕ} (h1 : s ≤ e) (h2 : e ≤ pts.length)
    (hout : t < s ∨ e ≤ t) :
    (sortRange key pts s e).getD t (0, 0) = pts.getD t (0, 0) := by
  unfold sortRange
  have hlenT : (pts.take s).length = s := by
    rw [List.length_take]
    omega
  have hlenM : (sortByKey key ((pts.drop s).take (e - s))).length = e - s := by
    rw [(sortByKey_perm key _).length_eq, List.length_take, List.length_drop]
    omega
  rcases hout with h | h
  · rw [List.getD_eq_getElem?_getD, List.getD_eq_getElem?_getD,
      List.getElem?_append_left
        (by rw [List.length_append, hlenT, hlenM]; omega),
      List.getElem?_append_left (by rw [hlenT]; omega),
      List.getElem?_take, if_pos (show t < s from h)]
  · rw [List.getD_eq_getElem?_getD, List.getD_eq_getElem?_getD,
      List.getElem?_append_right
        (by rw [List.length_append, hlenT, hlenM]; omega),
      List.getElem?_drop]
    congr 2
    rw [List.length_append, hlenT, hlenM]
    omega

/-! ### Chain and bucket lemmas -/

theorem minInt_eq (a b : ℕ) : minInt a b = min a b := by
  unfold minInt
  split_ifs with h <;> omega

theorem chainFrom_le : ∀ {l : List (ℕ × ℕ)} {a b : ℕ}, ChainFrom a b l → a ≤ b
  | [], _, _, h => le_of_eq h
  | _ :: _, _, _, ⟨_, h2, h3⟩ => le_trans (le_of_lt h2) (chainFrom_le h3)

theorem chainFrom_bounds : ∀ {l : List (ℕ × ℕ)} {a b : ℕ}, ChainFrom a b l →
    ∀ p ∈ l, a ≤ p.1 ∧ p.1 < p.2 ∧ p.2 ≤ b
  | [], _, _, _, p, hp => absurd hp (List.not_mem_nil p)
  | q :: rest, a, b, ⟨h1, h2, h3⟩, p, hp => by
    rcases List.mem_cons.mp hp with rfl | hp'
    · exact ⟨le_of_eq h1.symm, h1 ▸ h2, chainFrom_le h3⟩
    · have := chainFrom_bounds h3 p hp'
      omega

theorem chainFrom_append : ∀ {l1 l2 : List (ℕ × ℕ)} {a m b : ℕ},
    ChainFrom a m l1 → ChainFrom m b l2 → ChainFrom a b (l1 ++ l2)
  | [], l2, a, m, b, h1, h2 => by
    cases h1
    exact h2
  | q :: rest, l2, a, m, b, ⟨h1, h2, h3⟩, h4 =>
    ⟨h1, h2, chainFrom_append h3 h4⟩

theorem chainFrom_flatMap {inner : ℕ × ℕ → List (ℕ × ℕ)} :
    ∀ {outer : List (ℕ × ℕ)} {a b : ℕ}, ChainFrom a b outer →
    (∀ p ∈ outer, ChainFrom p.1 p.2 (inner p)) →
    ChainFrom a b (outer.flatMap inner)
  | [], a, b, h, _ => h
  | q :: rest, a, b, ⟨h1, _, h3⟩, hall => by
    rw [List.flatMap_cons]
    exact chainFrom_append (h1 ▸ hall q (List.mem_cons_self q rest))
      (chainFrom_flatMap h3 fun p hp => hall p (List.mem_cons_of_mem q hp))

theorem chainFrom_flat : ∀ {l : List (ℕ × ℕ)} {a b : ℕ}, ChainFrom a b l →
    l.flatMap (fun p => List.range' p.1 (p.2 - p.1)) = List.range' a (b - a)
  | [], a, b, h => by
    cases h
    simp
  | q :: rest, a, b, ⟨h1, h2, h3⟩ => by
    rw [List.flatMap_cons, chainFrom_flat h3, h1]
    have hb := chainFrom_le h3
    have := List.range'_append a (q.2 - a) (b - q.2) 1
    rw [one_mul] at this
    have ha : a + (q.2 - a) = q.2 := by omega
    have hsum : b - q.2 + (q.2 - a) = b - a := by omega
    rw [ha, hsum] at this
    exact this

theorem chainFrom_sum : ∀ {l : List (ℕ × ℕ)} {a b : ℕ}, ChainFrom a b l →
    (l.map fun p => p.2 - p.1).sum = b - a
  | [], _, _, h => by
    cases h
    simp
  | q :: rest, a, b, ⟨h1, h2, h3⟩ => by
    rw [List.map_cons, List.sum_cons, chainFrom_sum h3]
    have := chainFrom_le h3
    omega

theorem chainFrom_length_le {l : List (ℕ × ℕ)} {a b : ℕ}
    (h : ChainFrom a b l) : l.length ≤ b - a := by
  induction l generalizing a with
  | nil => simp
  | cons q rest ih =>
    obtain ⟨h1, h2, h3⟩ := h
    have := ih h3
    have := chainFrom_le h3
    simp only [List.length_cons]
    omega

theorem bucketBoundsAux_chain {step : ℕ} (hstep : 1 ≤ step) :
    ∀ (k len off : ℕ), len ≤ k →
      ChainFrom off (off + len) (bucketBoundsAux step k off len)
  | 0, len, off, h => by
    unfold bucketBoundsAux
    show off = off + len
    omega
  | k + 1, len, off, h => by
    unfold bucketBoundsAux
    split_ifs with h0
    · show off = off + len
      omega
    · refine ⟨rfl, by rw [minInt_eq]; omega, ?_⟩
      have := bucketBoundsAux_chain hstep k (len - step) (off + minInt step len)
        (by omega)
      have harith : off + minInt step len + (len - step) = off + len := by
        rw [minInt_eq]
        omega
      rwa [harith] at this

theorem bucketBounds_chain {step : ℕ} (hstep : 1 ≤ step) (off len : ℕ) :
    ChainFrom off (off + len) (bucketBounds off len step) :=
  bucketBoundsAux_chain hstep len len off (le_refl len)

theorem bucketBoundsAux_size {step : ℕ} :
    ∀ (k len off : ℕ), ∀ p ∈ bucketBoundsAux step k off len, p.2 - p.1 ≤ step
  | 0, _, _, p, hp => absurd hp (List.not_mem_nil p)
  | k + 1, len, off, p, hp => by
    unfold bucketBoundsAux at hp
    split_ifs at hp with h0
    · exact absurd hp (List.not_mem_nil p)
    · rcases List.mem_cons.mp hp with rfl | hp'
      · simp only [minInt_eq]
        omega
      · exact bucketBoundsAux_size k (len - step) (off + minInt step len) p hp'

theorem bucketBounds_size {step : ℕ} (off len : ℕ) :
    ∀ p ∈ bucketBounds off len step, p.2 - p.1 ≤ step :=
  bucketBoundsAux_size len len off

/-! ### Ceiling-division arithmetic -/

theorem cdiv_le_iff {b : ℕ} (hb : 1 ≤ b) (a c : ℕ) :
    cdiv a b ≤ c ↔ a ≤ c * b := by
  unfold cdiv
  rw [← Nat.lt_succ_iff, Nat.div_lt_iff_lt_mul (by omega), Nat.succ_mul]
  omega

theorem le_mul_cdiv {b : ℕ} (hb : 1 ≤ b) (a : ℕ) : a ≤ cdiv a b * b :=
  (cdiv_le_iff hb a (cdiv a b)).mp (le_refl _)

theorem cdiv_pos {a b : ℕ} (ha : 1 ≤ a) (hb : 1 ≤ b) : 1 ≤ cdiv a b := by
  by_contra h
  have h0 : cdiv a b ≤ 0 := by omega
  rw [cdiv_le_iff hb] at h0
  omega

theorem cdiv_cdiv_le {a m : ℕ} (ha : 1 ≤ a) (hm : 1 ≤ m) :
    cdiv a (cdiv a m) ≤ m := by
  rw [cdiv_le_iff (cdiv_pos ha hm)]
  rw [mul_comm]
  exact le_mul_cdiv hm a

theorem cdiv_le_cdiv {a a' b : ℕ} (h : a ≤ a') : cdiv a b ≤ cdiv a' b := by
  unfold cdiv
  exact Nat.div_le_div_right (by omega)

theorem cdiv_mul_self {b : ℕ} (hb : 1 ≤ b) (s : ℕ) : cdiv (b * s) b = s := by
  unfold cdiv
  have : b * s + b - 1 = b * s + (b - 1) := by omega
  rw [this, Nat.mul_add_div (by omega), Nat.div_eq_of_lt (by omega)]
  omega

theorem ceilSqrtNat_sq_ge (m : ℕ) : m ≤ ceilSqrtNat m * ceilSqrtNat m := by
  unfold ceilSqrtNat
  split_ifs with h
  · omega
  · have := Nat.lt_succ_sqrt' (m - 1)
    rw [pow_two, Nat.succ_eq_add_one] at this
    omega

theorem ceilSqrtNat_le_three {m : ℕ} (h : m ≤ 9) : ceilSqrtNat m ≤ 3 := by
  unfold ceilSqrtNat
  split_ifs with h0
  · omega
  · have : Nat.sqrt (m - 1) < 3 := by
      rw [Nat.sqrt_lt']
      omega
    omega

theorem ceilSqrtNat_pos {m : ℕ} (h : 1 ≤ m) : 1 ≤ ceilSqrtNat m := by
  unfold ceilSqrtNat
  split_ifs with h0 <;> omega

/-- The exact-arithmetic ceiling of a natural division matches cdiv. -/
theorem intCeil_div_nat (a : ℕ) {b : ℕ} (hb : 1 ≤ b) :
    ⌈(a : ℚ) / (b : ℚ)⌉ = (cdiv a b : ℤ) := by
  have hb0 : (0 : ℚ) < (b : ℚ) := by
    exact_mod_cast hb
  rcases Nat.eq_zero_or_pos a with rfl | ha
  · have : cdiv 0 b = 0 := by
      unfold cdiv
      rw [Nat.div_eq_of_lt (by omega)]
    rw [this]
    simp
  · have hc1 : 1 ≤ cdiv a b := cdiv_pos ha hb
    have hnat : (cdiv a b - 1) * b < a := by
      by_contra hcon
      push_neg at hcon
      have := (cdiv_le_iff hb a (cdiv a b - 1)).mpr hcon
      omega
    rw [Int.ceil_eq_iff]
    constructor
    · push_cast
      rw [show ((cdiv a b : ℚ) - 1) = (((cdiv a b - 1 : ℕ)) : ℚ) by
          rw [Nat.cast_sub hc1]; push_cast; ring,
        lt_div_iff₀ hb0]
      exact_mod_cast hnat
    · push_cast
      rw [div_le_iff₀ hb0]
      exact_mod_cast le_mul_cdiv hb a
theorem buildFold_eq (h : ℤ) (N2 : ℕ) :
    ∀ (bs : List (ℕ × ℕ)) (pts : FlatPoints) (acc : List Node),
      (bs.foldl (fun (a : FlatPoints × List Node) b =>
          (sortRange Prod.snd a.1 b.1 b.2, a.2 ++ kidsOf h N2 b)) (pts, acc)) =
        (bs.foldl (fun p b => sortRange Prod.snd p b.1 b.2) pts,
         acc ++ bs.flatMap (kidsOf h N2))
  | [], pts, acc => by simp
  | b :: bs', pts, acc => by
    rw [List.foldl_cons, List.foldl_cons, buildFold_eq h N2 bs' _ _,
      List.flatMap_cons, List.append_assoc]

theorem ptsFold_perm (pts : FlatPoints) :
    ∀ bs : List (ℕ × ℕ), (∀ b ∈ bs, b.1 ≤ b.2) →
      List.Perm (bs.foldl (fun p (b : ℕ × ℕ) => sortRange Prod.snd p b.1 b.2) pts) pts
  | [], _ => .refl _
  | b :: bs', hmem => by
    rw [List.foldl_cons]
    exact (ptsFold_perm _ bs' (fun c hc => hmem c (List.mem_cons_of_mem b hc))).trans
      (sortRange_perm _ pts b.1 b.2)

/-! ### Structure preservation of the bbox pass -/

theorem structEq_refl (A : List Node) : structEq A A :=
  ⟨rfl, fun _ => ⟨rfl, rfl, rfl, rfl, rfl, fun _ => rfl⟩⟩

theorem structEq_trans {A B C : List Node} (h1 : structEq A B)
    (h2 : structEq B C) : structEq A C := by
  obtain ⟨hl1, hf1⟩ := h1
  obtain ⟨hl2, hf2⟩ := h2
  refine ⟨hl1.trans hl2, fun j => ?_⟩
  obtain ⟨a1, a2, a3, a4, a5, a6⟩ := hf1 j
  obtain ⟨b1, b2, b3, b4, b5, b6⟩ := hf2 j
  exact ⟨a1.trans b1, a2.trans b2, a3.trans b3, a4.trans b4, a5.trans b5,
    fun h => (a6 h).trans (b6 (a2 ▸ h))⟩

theorem structEq_set_bbox (A : List Node) (i : ℕ) (b : BBox)
    (hleaf : (nd A i).isLeaf = false) :
    structEq (A.set i { nd A i with BBox := b }) A := by
  by_cases hi : i < A.length
  · refine ⟨by simp, fun j => ?_⟩
    by_cases hj : j = i
    · subst hj
      rw [nd_set_self hi]
      exact ⟨rfl, rfl, rfl, rfl, rfl, fun h => absurd h (by rw [hleaf]; simp)⟩
    · rw [nd_set_ne (Ne.symm hj)]
      exact ⟨rfl, rfl, rfl, rfl, rfl, fun _ => rfl⟩
  · rw [List.set_eq_of_length_le (by omega)]
    exact structEq_refl A

theorem computeBBox_structEq : ∀ (fuel : ℕ) (nodes : List Node) (i : ℕ),
    structEq (computeBBoxDownwards nodes fuel i).1 nodes
  | 0, nodes, _ => structEq_refl nodes
  | fuel + 1, nodes, i => by
    have hfold : ∀ (cs : List ℕ) (acc : List Node × BBox),
        structEq acc.1 nodes →
        structEq ((cs.foldl (fun acc ci =>
          let rc := computeBBoxDownwards acc.1 fuel ci
          (rc.1, acc.2.extend rc.2)) acc).1) nodes := by
      intro cs
      induction cs with
      | nil => intro acc h; exact h
      | cons c' cs' ih =>
        intro acc h
        rw [List.foldl_cons]
        exact ih _ (structEq_trans (computeBBox_structEq fuel acc.1 c') h)
    simp only [computeBBoxDownwards]
    split
    · exact structEq_refl nodes
    · rename_i hL
      split
      · exact structEq_refl nodes
      · rename_i c cs hc
        have h0 : structEq (computeBBoxDownwards nodes fuel c).1 nodes :=
          computeBBox_structEq fuel nodes c
        have h1 := hfold cs _ h0
        refine structEq_trans (structEq_set_bbox _ i _ ?_) h1
        have h2 := (h1.2 i).2.1
        rw [h2]
        rw [Bool.not_eq_true] at hL
        exact hL

/-! ### Shape of one build step -/

theorem setLeafNode_eq (st : BuildState) (i : ℕ) :
    setLeafNode st i = ⟨st.points,
      st.nodes.set i { nd st.nodes i with
        children := (List.range ((nd st.nodes i).stop - (nd st.nodes i).start)).map
          (st.nodes.length + ·),
        height := 1 } ++
      (List.range ((nd st.nodes i).stop - (nd st.nodes i).start)).map fun j =>
        ({ children := [], height := 0, isLeaf := true,
           start := (nd st.nodes i).start + j,
           stop := (nd st.nodes i).start + j + 1,
           BBox := ⟨(st.points.GetPointAt ((nd st.nodes i).start + j)).1,
                    (st.points.GetPointAt ((nd st.nodes i).start + j)).2,
                    (st.points.GetPointAt ((nd st.nodes i).start + j)).1,
                    (st.points.GetPointAt ((nd st.nodes i).start + j)).2⟩ } : Node)⟩ :=
  rfl

theorem buildInternalNode_eq (st : BuildState) (i : ℕ) (isSorted : Bool)
    (N1 N2 : ℕ) :
    buildInternalNode st i isSorted N1 N2 =
      ⟨(bucketBounds (nd st.nodes i).start
          ((nd st.nodes i).stop - (nd st.nodes i).start) N1).foldl
          (fun p b => sortRange Prod.snd p b.1 b.2)
          (if isSorted then st.points
           else sortRange Prod.fst st.points (nd st.nodes i).start
             (nd st.nodes i).stop),
        st.nodes.set i { nd st.nodes i with
          children := (List.range ((bucketBounds (nd st.nodes i).start
              ((nd st.nodes i).stop - (nd st.nodes i).start) N1).flatMap
              (kidsOf (nd st.nodes i).height N2)).length).map
            (st.nodes.length + ·) } ++
        (bucketBounds (nd st.nodes i).start
          ((nd st.nodes i).stop - (nd st.nodes i).start) N1).flatMap
          (kidsOf (nd st.nodes i).height N2)⟩ := by
  unfold buildInternalNode
  dsimp only
  rw [buildFold_eq]
  rfl

theorem buildStep_unfold (M : ℕ) (st : BuildState) (i : ℕ) (s : Bool) :
    buildStep M st i s =
      if (nd st.nodes i).isLeaf = true then st
      else if (nd st.nodes i).stop - (nd st.nodes i).start ≤ M then
        setLeafNode st i
      else buildInternalNode st i s (n1Of M (nd st.nodes i)).toNat
        (n2Of M (nd st.nodes i)).toNat := rfl

theorem buildStep_of_leaf {st : BuildState} {i : ℕ} (M : ℕ) (s : Bool)
    (h : (nd st.nodes i).isLeaf = true) : buildStep M st i s = st := by
  rw [buildStep_unfold, if_pos h]

theorem buildStep_of_leafParent {M : ℕ} {st : BuildState} {i : ℕ} (s : Bool)
    (hL : (nd st.nodes i).isLeaf = false)
    (hN : (nd st.nodes i).stop - (nd st.nodes i).start ≤ M) :
    buildStep M st i s = setLeafNode st i := by
  rw [buildStep_unfold, if_neg (show ¬ (nd st.nodes i).isLeaf = true by
    rw [hL]; simp), if_pos hN]

theorem buildStep_of_internal {M : ℕ} {st : BuildState} {i : ℕ} (s : Bool)
    (hL : (nd st.nodes i).isLeaf = false)
    (hN : ¬ (nd st.nodes i).stop - (nd st.nodes i).start ≤ M) :
    buildStep M st i s = buildInternalNode st i s
      (n1Of M (nd st.nodes i)).toNat (n2Of M (nd st.nodes i)).toNat := by
  rw [buildStep_unfold, if_neg (show ¬ (nd st.nodes i).isLeaf = true by
    rw [hL]; simp), if_neg hN]

/-- Every build step leaves the arena at least as long and only rewrites
entry i. -/
theorem buildStep_nodes_shape (M : ℕ) (st : BuildState) (i : ℕ) (s : Bool) :
    (buildStep M st i s).nodes = st.nodes ∨
    ∃ (n' : Node) (extra : List Node),
      (buildStep M st i s).nodes = st.nodes.set i n' ++ extra := by
  by_cases hL : (nd st.nodes i).isLeaf = true
  · rw [buildStep_of_leaf M s hL]
    exact Or.inl rfl
  · rw [Bool.not_eq_true] at hL
    by_cases hN : (nd st.nodes i).stop - (nd st.nodes i).start ≤ M
    · rw [buildStep_of_leafParent s hL hN, setLeafNode_eq]
      exact Or.inr ⟨_, _, rfl⟩
    · rw [buildStep_of_internal s hL hN, buildInternalNode_eq]
      exact Or.inr ⟨_, _, rfl⟩

theorem buildStep_length_mono (M : ℕ) (st : BuildState) (i : ℕ) (s : Bool) :
    st.nodes.length ≤ (buildStep M st i s).nodes.length := by
  rcases buildStep_nodes_shape M st i s with h | ⟨n', extra, h⟩
  · rw [h]
  · rw [h, List.length_append, List.length_set]
    omega

theorem buildStep_nd_ne (M : ℕ) (st : BuildState) (i : ℕ) (s : Bool)
    (j : ℕ) (hne : j ≠ i) (hj : j < st.nodes.length) :
    nd (buildStep M st i s).nodes j = nd st.nodes j := by
  rcases buildStep_nodes_shape M st i s with h | ⟨n', extra, h⟩
  · rw [h]
  · rw [h, nd_set_append_of_ne n' hne hj]

theorem buildLoop_nd_lt (M : ℕ) : ∀ (fuel : ℕ) (st : BuildState) (i : ℕ)
    (s : Bool) (j : ℕ), j < i → j < st.nodes.length →
    nd (buildLoop M fuel st i s).nodes j = nd st.nodes j ∧
    st.nodes.length ≤ (buildLoop M fuel st i s).nodes.length
  | 0, st, i, s, j, _, _ => ⟨rfl, le_refl _⟩
  | fuel + 1, st, i, s, j, hji, hj => by
    unfold buildLoop
    split_ifs with hc
    · have hlen := buildStep_length_mono M st i s
      have := buildLoop_nd_lt M fuel (buildStep M st i s) (i + 1) false j
        (by omega) (by omega)
      exact ⟨this.1.trans (buildStep_nd_ne M st i s j (by omega) hj),
        le_trans hlen this.2⟩
    · exact ⟨rfl, le_refl _⟩

/-! ### The public pipeline on a legal fan-out and non-empty input -/

theorem loadTree_eq {M : ℕ} (pts : FlatPoints) (hM : M ≤ 9)
    (hpts : 1 ≤ pts.Len) : loadTree M pts = .ok (builtTree M pts) := by
  have h1 : NewWithOptions { MAX_ENTRIES := M } =
      .ok { options := ⟨M⟩, nodes := [], points := [], built := false,
            queueItemPoolPool := false, queuePool := false } := by
    unfold NewWithOptions MAX_POSSIBLE_ENTRIES
    rw [if_neg (show ¬ ({ MAX_ENTRIES := M } : Options).MAX_ENTRIES > 9 by
      show ¬ M > 9
      omega)]
  unfold loadTree
  rw [h1]
  show SimpleRTree.load _ pts false = _
  unfold SimpleRTree.load
  split_ifs with h2 h3
  · exact absurd h2 (by unfold FlatPoints.Len at hpts ⊢; omega)
  · exact h3.elim
  · rfl

/-- The first worklist iteration of the build, on the root. -/
theorem builtState_step0 (M : ℕ) (pts : FlatPoints) (isSorted : Bool) :
    builtState M pts isSorted =
      buildLoop M (buildFuel M pts.Len - 1)
        (buildStep M ⟨pts, [rootNode M pts.Len]⟩ 0 isSorted) 1 false := by
  unfold builtState
  have hF : buildFuel M pts.Len = (buildFuel M pts.Len - 1) + 1 := by
    unfold buildFuel
    omega
  rw [hF]
  simp only [buildLoop]
  rw [if_pos (show 0 < (([rootNode M pts.Len] : List Node)).length by simp)]

/-! ### Frontier bookkeeping -/

theorem nd_eq_getElem {nodes : List Node} {i : ℕ} (hi : i < nodes.length) :
    nd nodes i = nodes[i] := by
  rw [nd_eq, List.getElem?_eq_getElem hi]
  rfl

theorem drop_cons_nd {l : List Node} {i : ℕ} (hi : i < l.length) :
    l.drop i = nd l i :: l.drop (i + 1) := by
  rw [nd_eq_getElem hi]
  exact List.drop_eq_getElem_cons hi

theorem list_eq_take_cons_drop {l : List Node} {i : ℕ} (hi : i < l.length) :
    l = l.take i ++ nd l i :: l.drop (i + 1) := by
  conv_lhs => rw [← List.take_append_drop i l]
  rw [drop_cons_nd hi]

theorem frontierFlat_cons {nodes : List Node} {i : ℕ} (hi : i < nodes.length)
    (hL : (nd nodes i).isLeaf = false) :
    frontierFlat nodes i = nrange (nd nodes i) ++ frontierFlat nodes (i + 1) := by
  unfold frontierFlat
  rw [drop_cons_nd hi, List.filter_cons_of_pos (by rw [hL]; rfl),
    List.cons_append, List.flatMap_cons]

theorem frontierFlat_cons_leaf {nodes : List Node} {i : ℕ}
    (hi : i < nodes.length) (hL : (nd nodes i).isLeaf = true) :
    frontierFlat nodes i = frontierFlat nodes (i + 1) := by
  unfold frontierFlat
  rw [drop_cons_nd hi, List.filter_cons_of_neg (by rw [hL]; simp)]

theorem filter_leaf_set {nodes : List Node} {i : ℕ} {n' : Node}
    (hold : (nd nodes i).isLeaf = false) (hnew : n'.isLeaf = false) :
    (nodes.set i n').filter (fun n => n.isLeaf) =
      nodes.filter (fun n => n.isLeaf) := by
  by_cases hi : i < nodes.length
  · conv_rhs => rw [list_eq_take_cons_drop hi]
    rw [List.set_eq_take_append_cons_drop, if_pos hi, List.filter_append,
      List.filter_append, List.filter_cons_of_neg (by rw [hnew]; simp),
      List.filter_cons_of_neg (by rw [hold]; simp)]
  · rw [List.set_eq_of_length_le (by omega)]

theorem drop_succ_set_append {nodes : List Node} {i : ℕ} (n' : Node)
    (extra : List Node) (hi : i < nodes.length) :
    (nodes.set i n' ++ extra).drop (i + 1) = nodes.drop (i + 1) ++ extra := by
  rw [List.drop_append_eq_append_drop, drop_set_of_lt _ _ _ _ (by omega),
    List.length_set]
  congr 1
  rw [show i + 1 - nodes.length = 0 by omega]
  rfl

/-- The frontier after an internal-node step, before the permutation
argument: replaced entry i (still internal) plus freshly appended
internal children. -/
theorem frontierFlat_internal_step {nodes : List Node} {i : ℕ} {n' : Node}
    {kids : List Node} (hi : i < nodes.length)
    (hold : (nd nodes i).isLeaf = false) (hnew : n'.isLeaf = false)
    (hkids : ∀ c ∈ kids, c.isLeaf = false) :
    frontierFlat (nodes.set i n' ++ kids) (i + 1) =
      ((nodes.drop (i + 1)).filter (fun n => !n.isLeaf)).flatMap nrange ++
      kids.flatMap nrange ++
      (nodes.filter (fun n => n.isLeaf)).flatMap nrange := by
  unfold frontierFlat
  have hk1 : kids.filter (fun n => !n.isLeaf) = kids :=
    List.filter_eq_self.mpr (by intro c hc; rw [hkids c hc]; rfl)
  have hk2 : kids.filter (fun n => n.isLeaf) = [] :=
    List.filter_eq_nil_iff.mpr (by intro c hc; rw [hkids c hc]; simp)
  rw [drop_succ_set_append n' kids hi, List.filter_append, List.filter_append,
    hk1, hk2, filter_leaf_set hold hnew, List.append_nil, List.flatMap_append,
    List.flatMap_append]

/-- The frontier after a leaf-parent step: replaced entry i (still
internal) plus freshly appended leaves. -/
theorem frontierFlat_leafParent_step {nodes : List Node} {i : ℕ} {n' : Node}
    {lvs : List Node} (hi : i < nodes.length)
    (hold : (nd nodes i).isLeaf = false) (hnew : n'.isLeaf = false)
    (hlvs : ∀ c ∈ lvs, c.isLeaf = true) :
    frontierFlat (nodes.set i n' ++ lvs) (i + 1) =
      ((nodes.drop (i + 1)).filter (fun n => !n.isLeaf)).flatMap nrange ++
      ((nodes.filter (fun n => n.isLeaf)).flatMap nrange ++
        lvs.flatMap nrange) := by
  unfold frontierFlat
  have hk1 : lvs.filter (fun n => !n.isLeaf) = [] :=
    List.filter_eq_nil_iff.mpr (by intro c hc; rw [hlvs c hc]; simp)
  have hk2 : lvs.filter (fun n => n.isLeaf) = lvs :=
    List.filter_eq_self.mpr (by intro c hc; rw [hlvs c hc])
  rw [drop_succ_set_append n' lvs hi, List.filter_append, List.filter_append,
    hk1, hk2, filter_leaf_set hold hnew, List.append_nil, List.flatMap_append,
    List.flatMap_append]

/-- The old frontier decomposes the same way, with entry i in front. -/
theorem frontierFlat_old {nodes : List Node} {i : ℕ} (hi : i < nodes.length)
    (hold : (nd nodes i).isLeaf = false) :
    frontierFlat nodes i = nrange (nd nodes i) ++
      (((nodes.drop (i + 1)).filter (fun n => !n.isLeaf)).flatMap nrange ++
        (nodes.filter (fun n => n.isLeaf)).flatMap nrange) := by
  rw [frontierFlat_cons hi hold]
  unfold frontierFlat
  rw [List.flatMap_append]

theorem nd_mem {nodes : List Node} {j : ℕ} (hj : j < nodes.length) :
    nd nodes j ∈ nodes := by
  rw [nd_eq_getElem hj]
  exact List.getElem_mem hj

/-- Frontier members cover pairwise disjoint position ranges; in
particular a leaf's position lies outside the range of the unresolved
node i. -/
theorem frontier_leaf_outside {M N : ℕ} {P0 : FlatPoints} {st : BuildState}
    {i : ℕ} (hInv : Inv M N P0 st i) (hi : i < st.nodes.length)
    (hL : (nd st.nodes i).isLeaf = false) {j : ℕ} (hj : j < st.nodes.length)
    (hjL : (nd st.nodes j).isLeaf = true) :
    (nd st.nodes j).start < (nd st.nodes i).start ∨
      (nd st.nodes i).stop ≤ (nd st.nodes j).start := by
  have hnd : (frontierFlat st.nodes i).Nodup :=
    hInv.frontier.nodup_iff.mpr (List.nodup_range N)
  unfold frontierFlat at hnd
  rw [List.nodup_flatMap] at hnd
  have hpw := hnd.2
  rw [List.pairwise_append] at hpw
  have hmemA : nd st.nodes i ∈ (st.nodes.drop i).filter (fun n => !n.isLeaf) := by
    rw [List.mem_filter]
    refine ⟨?_, by rw [hL]; rfl⟩
    rw [drop_cons_nd hi]
    exact List.mem_cons_self _ _
  have hmemB : nd st.nodes j ∈ st.nodes.filter (fun n => n.isLeaf) := by
    rw [List.mem_filter]
    exact ⟨nd_mem hj, hjL⟩
  have hdisj := hpw.2.2 (nd st.nodes i) hmemA (nd st.nodes j) hmemB
  have hshape := hInv.leaf_shape j hj hjL
  have hjmem : (nd st.nodes j).start ∈ nrange (nd st.nodes j) := by
    unfold nrange
    rw [hshape.1]
    simp
  by_contra hcon
  push_neg at hcon
  have hilt := hInv.range_lt i hi
  have himem : (nd st.nodes j).start ∈ nrange (nd st.nodes i) := by
    unfold nrange
    rw [List.mem_range'_1]
    omega
  exact hdisj himem hjmem

theorem bucketBounds_within {step : ℕ} (hstep : 1 ≤ step) (off len : ℕ) :
    ∀ p ∈ bucketBounds off len step, off ≤ p.1 ∧ p.1 < p.2 ∧ p.2 ≤ off + len :=
  fun p hp => chainFrom_bounds (bucketBounds_chain hstep off len) p hp

theorem bucketBoundsAux_length_le {step : ℕ} (hstep : 1 ≤ step) :
    ∀ (k len off c : ℕ), len ≤ k → len ≤ c * step →
      (bucketBoundsAux step k off len).length ≤ c
  | 0, len, off, c, h, hc => by
    unfold bucketBoundsAux
    simp
  | k + 1, len, off, c, h, hc => by
    unfold bucketBoundsAux
    split_ifs with h0
    · simp
    · have hc1 : 1 ≤ c := by
        by_contra hcc
        have hc0 : c = 0 := by omega
        rw [hc0] at hc
        simp at hc
        omega
      have hmul : c * step = (c - 1) * step + step := by
        have hc' : c = (c - 1) + 1 := by omega
        conv_lhs => rw [hc']
        rw [add_mul, one_mul]
      have hrec := bucketBoundsAux_length_le hstep k (len - step)
        (off + minInt step len) (c - 1) (by omega) (by omega)
      simp only [List.length_cons]
      omega

theorem bucketBounds_length_le {step c : ℕ} (hstep : 1 ≤ step)
    (off len : ℕ) (hc : len ≤ c * step) :
    (bucketBounds off len step).length ≤ c :=
  bucketBoundsAux_length_le hstep len len off c (le_refl _) hc

theorem length_flatMap_le {α β : Type} (f : α → List β) (c : ℕ) :
    ∀ l : List α, (∀ x ∈ l, (f x).length ≤ c) →
      (l.flatMap f).length ≤ l.length * c
  | [], _ => by simp
  | a :: l', h => by
    rw [List.flatMap_cons, List.length_append, List.length_cons,
      Nat.succ_mul]
    have h1 := h a (List.mem_cons_self a l')
    have h2 := length_flatMap_le f c l' fun x hx => h x (List.mem_cons_of_mem a hx)
    omega

/-- The exact values and bounds of the slice parameters for an internal
node satisfying the unresolved-node invariant. -/
theorem internal_params {M : ℕ} (n : Node) (hM2 : 2 ≤ M) (hM9 : M ≤ 9)
    (hh0 : 0 ≤ n.height)
    (hbound : n.stop - n.start ≤ M ^ n.height.toNat)
    (hNM : ¬ n.stop - n.start ≤ M) :
    2 ≤ n.height.toNat ∧
    (n2Of M n).toNat =
      cdiv (n.stop - n.start)
        (cdiv (n.stop - n.start) (M ^ (n.height.toNat - 1))) ∧
    (n1Of M n).toNat = (n2Of M n).toNat *
      ceilSqrtNat (cdiv (n.stop - n.start) (M ^ (n.height.toNat - 1))) ∧
    1 ≤ (n2Of M n).toNat ∧
    (n2Of M n).toNat ≤ M ^ (n.height.toNat - 1) ∧
    1 ≤ ceilSqrtNat (cdiv (n.stop - n.start) (M ^ (n.height.toNat - 1))) ∧
    ceilSqrtNat (cdiv (n.stop - n.start) (M ^ (n.height.toNat - 1))) ≤ 3 ∧
    n.stop - n.start ≤ (n2Of M n).toNat *
      (ceilSqrtNat (cdiv (n.stop - n.start) (M ^ (n.height.toNat - 1))) *
       ceilSqrtNat (cdiv (n.stop - n.start) (M ^ (n.height.toNat - 1)))) := by
  have hL1 : 1 ≤ n.stop - n.start := by omega
  have hML : M < n.stop - n.start := by omega
  have hT2 : 2 ≤ n.height.toNat := by
    have hpow : M ^ 1 < M ^ n.height.toNat := by
      rw [pow_one]
      omega
    have := (Nat.pow_lt_pow_iff_right (by omega : 1 < M)).mp hpow
    omega
  have hP1 : 1 ≤ M ^ (n.height.toNat - 1) := Nat.pow_pos (by omega)
  have hcast : n.height - 1 = ((n.height.toNat - 1 : ℕ) : ℤ) := by
    rw [← Int.toNat_of_nonneg hh0]
    omega
  have hqpow : (M : ℚ) ^ (n.height - 1) =
      ((M ^ (n.height.toNat - 1) : ℕ) : ℚ) := by
    rw [hcast, zpow_natCast]
    push_cast
    rfl
  have mc_eq : mcOf M n =
      ((cdiv (n.stop - n.start) (M ^ (n.height.toNat - 1)) : ℕ) : ℤ) := by
    unfold mcOf
    rw [hqpow]
    exact intCeil_div_nat _ hP1
  have hMc1 : 1 ≤ cdiv (n.stop - n.start) (M ^ (n.height.toNat - 1)) :=
    cdiv_pos hL1 hP1
  have hMcM : cdiv (n.stop - n.start) (M ^ (n.height.toNat - 1)) ≤ M := by
    rw [cdiv_le_iff hP1]
    have hstep : M * M ^ (n.height.toNat - 1) = M ^ n.height.toNat := by
      rw [← pow_succ']
      congr 1
      omega
    omega
  have n2_eq : n2Of M n =
      ((cdiv (n.stop - n.start)
        (cdiv (n.stop - n.start) (M ^ (n.height.toNat - 1))) : ℕ) : ℤ) := by
    unfold n2Of
    rw [mc_eq]
    rw [show (((cdiv (n.stop - n.start) (M ^ (n.height.toNat - 1)) : ℕ) : ℤ) : ℚ) =
      ((cdiv (n.stop - n.start) (M ^ (n.height.toNat - 1)) : ℕ) : ℚ) by push_cast; rfl]
    exact intCeil_div_nat _ hMc1
  have n2_toNat : (n2Of M n).toNat =
      cdiv (n.stop - n.start)
        (cdiv (n.stop - n.start) (M ^ (n.height.toNat - 1))) := by
    rw [n2_eq]
    exact Int.toNat_natCast _
  have sqrt_eq : intCeilSqrt (mcOf M n) =
      ((ceilSqrtNat (cdiv (n.stop - n.start) (M ^ (n.height.toNat - 1))) : ℕ) : ℤ) := by
    unfold intCeilSqrt
    rw [mc_eq, Int.toNat_natCast]
  have n1_toNat : (n1Of M n).toNat = (n2Of M n).toNat *
      ceilSqrtNat (cdiv (n.stop - n.start) (M ^ (n.height.toNat - 1))) := by
    unfold n1Of
    rw [n2_eq, sqrt_eq]
    rw [show (((cdiv (n.stop - n.start)
        (cdiv (n.stop - n.start) (M ^ (n.height.toNat - 1))) : ℕ) : ℤ) *
        ((ceilSqrtNat (cdiv (n.stop - n.start) (M ^ (n.height.toNat - 1))) : ℕ) : ℤ)) =
        (((cdiv (n.stop - n.start)
          (cdiv (n.stop - n.start) (M ^ (n.height.toNat - 1))) *
          ceilSqrtNat (cdiv (n.stop - n.start) (M ^ (n.height.toNat - 1))) : ℕ) : ℤ)) by
      push_cast
      ring]
    rw [Int.toNat_natCast, Int.toNat_natCast]
  refine ⟨hT2, n2_toNat, n1_toNat, ?_, ?_, ?_, ?_, ?_⟩
  · rw [n2_toNat]
    exact cdiv_pos hL1 hMc1
  · rw [n2_toNat]
    exact cdiv_cdiv_le hL1 hP1
  · exact ceilSqrtNat_pos hMc1
  · exact ceilSqrtNat_le_three (by omega)
  · rw [n2_toNat]
    calc n.stop - n.start ≤
        cdiv (n.stop - n.start)
          (cdiv (n.stop - n.start) (M ^ (n.height.toNat - 1))) *
        cdiv (n.stop - n.start) (M ^ (n.height.toNat - 1)) :=
          le_mul_cdiv hMc1 _
      _ ≤ _ := Nat.mul_le_mul_left _ (ceilSqrtNat_sq_ge _)

/-- C6, amended.  For every fan-out cap M in [2,9] and non-empty input,
the built root's height field equals max(1, Nat.clog M N): the seed value
Ceil(Log N / Log M) = Nat.clog M N survives when N exceeds M, and is
overwritten with 1 by setLeafNode when the root becomes a leaf parent
(N at most M), which differs from Nat.clog M N only at N = 1. -/
theorem C6_root_height (M : ℕ) (pts : FlatPoints) (hM2 : 2 ≤ M)
    (hM9 : M ≤ 9) (hpts : 1 ≤ pts.Len) :
    ∃ t, loadTree M pts = .ok t ∧
      (t.nodes.getD 0 default).height =
        ((max 1 (Nat.clog M pts.Len) : ℕ) : ℤ) := by
  refine ⟨builtTree M pts, loadTree_eq pts hM9 hpts, ?_⟩
  have hstruct := computeBBox_structEq
    ((builtState M pts false).nodes.length + 1) (builtState M pts false).nodes 0
  have hh := (hstruct.2 0).2.2.1
  show (nd (finalNodes M pts false) 0).height = _
  unfold finalNodes
  rw [hh]
  rw [builtState_step0]
  have hL0 : (nd ([rootNode M pts.Len] : List Node) 0).isLeaf = false := rfl
  have hlen1 : (buildStep M ⟨pts, [rootNode M pts.Len]⟩ 0 false).nodes.length ≥ 1 := by
    have := buildStep_length_mono M ⟨pts, [rootNode M pts.Len]⟩ 0 false
    simpa using this
  rw [(buildLoop_nd_lt M (buildFuel M pts.Len - 1)
    (buildStep M ⟨pts, [rootNode M pts.Len]⟩ 0 false) 1 false 0
    (by omega) (by omega)).1]
  by_cases hNM : (nd ([rootNode M pts.Len] : List Node) 0).stop -
      (nd ([rootNode M pts.Len] : List Node) 0).start ≤ M
  · rw [show (buildStep M ⟨pts, [rootNode M pts.Len]⟩ 0 false) =
        setLeafNode ⟨pts, [rootNode M pts.Len]⟩ 0 from
      buildStep_of_leafParent false hL0 hNM]
    rw [setLeafNode_eq]
    show (nd (([rootNode M pts.Len] : List Node).set 0 _ ++ _) 0).height = _
    rw [nd_append_left (by simp), nd_set_self (by simp)]
    show (1 : ℤ) = _
    have hstop : (nd ([rootNode M pts.Len] : List Node) 0).stop = pts.Len := rfl
    have hstart : (nd ([rootNode M pts.Len] : List Node) 0).start = 0 := rfl
    rw [hstop, hstart] at hNM
    have hclog : Nat.clog M pts.Len ≤ 1 := by
      rw [← Nat.le_pow_iff_clog_le (by omega)]
      rw [pow_one]
      omega
    have : max 1 (Nat.clog M pts.Len) = 1 := by omega
    rw [this]
    rfl
  · rw [show (buildStep M ⟨pts, [rootNode M pts.Len]⟩ 0 false) =
        buildInternalNode ⟨pts, [rootNode M pts.Len]⟩ 0 false
          (n1Of M (nd ([rootNode M pts.Len] : List Node) 0)).toNat
          (n2Of M (nd ([rootNode M pts.Len] : List Node) 0)).toNat from
      buildStep_of_internal false hL0 hNM]
    rw [buildInternalNode_eq]
    show (nd (([rootNode M pts.Len] : List Node).set 0 _ ++ _) 0).height = _
    rw [nd_append_left (by simp), nd_set_self (by simp)]
    show (Nat.clog M pts.Len : ℤ) = _
    have hstop : (nd ([rootNode M pts.Len] : List Node) 0).stop = pts.Len := rfl
    have hstart : (nd ([rootNode M pts.Len] : List Node) 0).start = 0 := rfl
    rw [hstop, hstart] at hNM
    have hclog : 1 ≤ Nat.clog M pts.Len :=
      Nat.clog_pos (by omega) (by omega)
    have : max 1 (Nat.clog M pts.Len) = Nat.clog M pts.Len := by omega
    rw [this]

/-- C6, witness for the amended theorem at M = 2, one point. -/
theorem C6_root_height_witness :
    ((2 : ℕ) ≤ 2 ∧ (2 : ℕ) ≤ 9 ∧
      1 ≤ FlatPoints.Len [((5 : ℚ), (7 : ℚ))]) ∧
    ∃ t, loadTree 2 [((5 : ℚ), (7 : ℚ))] = .ok t ∧
      (t.nodes.getD 0 default).height =
        ((max 1 (Nat.clog 2 (FlatPoints.Len [((5 : ℚ), (7 : ℚ))])) : ℕ) : ℤ) :=
  ⟨⟨by decide, by decide, by decide⟩,
    C6_root_height 2 [((5 : ℚ), (7 : ℚ))] (by decide) (by decide) (by decide)⟩

theorem ptsFold_getD_outside (t : ℕ) :
    ∀ (bs : List (ℕ × ℕ)) (pts : FlatPoints),
      (∀ b ∈ bs, b.1 ≤ b.2 ∧ b.2 ≤ pts.length) →
      (∀ b ∈ bs, t < b.1 ∨ b.2 ≤ t) →
      (bs.foldl (fun p (b : ℕ × ℕ) => sortRange Prod.snd p b.1 b.2) pts).getD t (0, 0) =
        pts.getD t (0, 0)
  | [], pts, _, _ => rfl
  | b :: bs', pts, hb, ht => by
    rw [List.foldl_cons]
    have h1 := hb b (List.mem_cons_self b bs')
    have hlen : (sortRange Prod.snd pts b.1 b.2).length = pts.length :=
      sortRange_length _ pts b.1 b.2
    rw [ptsFold_getD_outside t bs' _
        (fun c hc => by rw [hlen]; exact hb c (List.mem_cons_of_mem b hc))
        (fun c hc => ht c (List.mem_cons_of_mem b hc)),
      sortRange_getD_outside _ pts h1.1 h1.2 (ht b (List.mem_cons_self b bs'))]

end SRT
